import Mathlib

/-!
Verification of the Demodifier core (modification parser, MISP generator,
ancestor resolver, classifier) against its natural-language specification.

Peptides from the Python source are modelled as `List Char` (Python `str`),
modification columns as `String`, and the Unipept oracle as an abstract
function from a request chunk to an optional parsed response.  All
definitions are shallow embeddings of the functions in
`src/demodifier/analysis.py`, `src/demodifier/unipept_api.py`,
`src/demodifier/writers.py` and `src/demodifier/main.py`.
-/

/-! ## String utilities shared by the embedded functions -/

/-- Case-sensitive test that `needle` occurs as a contiguous substring of
`haystack` (Python's `needle in haystack`). -/
def startsWithL : List Char → List Char → Bool
  | [], _ => true
  | _ :: _, [] => false
  | a :: as, b :: bs => a = b && startsWithL as bs

def isSubstrL (needle : List Char) : List Char → Bool
  | [] => startsWithL needle []
  | b :: bs => startsWithL needle (b :: bs) || isSubstrL needle bs

/-- Python's `"pyro" in modifications.lower()` (with an absent/empty
annotation counting as no flag, as in the source's truthiness guard). -/
def pyroFlag (mods : String) : Bool :=
  isSubstrL "pyro".toList (mods.toList.map Char.toLower)

/-! ## Modification parser (`analysis.extract_deamidation_count`)

The source applies `re.findall` with the pattern
`(?:(\d+)\s*)?(Deamidated|Deamidation)\s*\(NQ\)` (IGNORECASE) and sums
`int(num) if num else 1` over the matches.  Because a digit can never begin
the literal keyword and a space can never begin it either, the regex
engine's greedy matching is deterministic here, so the scan below — at each
position, take the maximal digit run, optional spaces, the keyword
alternation, optional spaces, `(NQ)` — computes exactly the same match set,
restarting after the end of each non-overlapping match.  The fuel argument
equals the input length; each successful match consumes at least one
character, so the fuel never runs out on the source's behaviour. -/

/-- Case-insensitive literal match; returns the remaining suffix. -/
def matchCI : List Char → List Char → Option (List Char)
  | [], s => some s
  | _ :: _, [] => none
  | a :: as, b :: bs => if a.toLower = b.toLower then matchCI as bs else none

def digitsToNat (ds : List Char) : Nat :=
  ds.foldl (fun n c => n * 10 + (c.toNat - '0'.toNat)) 0

/-- Matches `(Deamidated|Deamidation)\s*\(NQ\)` at the head of `s`. -/
def afterKw (s : List Char) : Option (List Char) :=
  match matchCI "deamidated".toList s <|> matchCI "deamidation".toList s with
  | none => none
  | some r1 => matchCI "(nq)".toList (r1.dropWhile Char.isWhitespace)

/-- One attempt of the full pattern at the head of `s`; on success returns
the summed value of this match and the suffix after the match. -/
def tryMatchAt (s : List Char) : Option (Nat × List Char) :=
  let ds := s.takeWhile Char.isDigit
  let rest := s.dropWhile Char.isDigit
  if ds.isEmpty then
    match afterKw s with
    | some r => some (1, r)
    | none => none
  else
    match afterKw (rest.dropWhile Char.isWhitespace) with
    | some r => some (digitsToNat ds, r)
    | none => none

def scanDeamid : Nat → List Char → Nat
  | _, [] => 0
  | 0, _ :: _ => 0
  | fuel + 1, c :: rest =>
    match tryMatchAt (c :: rest) with
    | some (v, after) => v + scanDeamid fuel after
    | none => scanDeamid fuel rest

/-- Embeds `analysis.extract_deamidation_count`. -/
def extract_deamidation_count (mods : String) : Nat :=
  scanDeamid mods.toList.length mods.toList

/-! ## `analysis.count_deamidatable_residues` and
`analysis.deamidation_position_required` -/

/-- Embeds `analysis.count_deamidatable_residues`. -/
def count_deamidatable_residues (peptide : List Char) (mods : String) : Nat :=
  if peptide = [] then 0
  else
    let sequence :=
      if pyroFlag mods ∧ (peptide.head? = some 'Q' ∨ peptide.head? = some 'E') then
        peptide.tail
      else peptide
    sequence.countP fun aa => decide (aa = 'N' ∨ aa = 'Q')

/-- Embeds `analysis.deamidation_position_required`. -/
def deamidation_position_required (mods : String) (peptide : List Char)
    (identical_lcas : String) : String :=
  if peptide = [] then "not required"
  else
    let num_deamid := extract_deamidation_count mods
    if identical_lcas ≠ "no" ∨ num_deamid = 0 then "not required"
    else
      let nq_total := count_deamidatable_residues peptide mods
      if num_deamid < nq_total then "required" else "not required"

/-! ## MISP generator (`analysis.generate_deamidation_permutations`,
`analysis.generate_reamidation_permutations`,
`analysis.add_pyro_glu_permutations`) -/

/-- The source's `"X" + peptide[1:]` masking of an N-terminal Q/E when the
pyro flag is set (the source indexes `peptide[0]`, so it is only ever
applied to non-empty peptides; on `[]` this embedding returns `[]`). -/
def pyroAdjust (mods : String) (peptide : List Char) : List Char :=
  match peptide with
  | [] => []
  | c :: rest =>
    if pyroFlag mods ∧ (c = 'Q' ∨ c = 'E') then 'X' :: rest else c :: rest

/-- `[i for i, letter in enumerate(p) if letter == c]`. -/
def indicesOf (c : Char) (l : List Char) : List Nat :=
  (l.enum.filter fun pr => decide (pr.2 = c)).map Prod.fst

/-- `[i for i, letter in enumerate(p) if letter == c and i not in frozen]`. -/
def unmodIndicesOf (c : Char) (frozen : List Nat) (l : List Char) : List Nat :=
  (l.enum.filter fun pr => decide (pr.2 = c ∧ pr.1 ∉ frozen)).map Prod.fst

/-- `for index in combo: temp[index] = c` on a copy of `l`. -/
def applySubs (c : Char) (combo : List Nat) (l : List Char) : List Char :=
  combo.foldl (fun t i => t.set i c) l

/-- Embeds `analysis.generate_deamidation_permutations` (Phase 1): each
output is the permuted sequence, the number of substitutions, and the
0-based substituted positions.  `List.sublistsLen` plays the role of
`itertools.combinations` (same elements, possibly a different order, which
the source states is irrelevant). -/
def generate_deamidation_permutations (peptide : List Char) (max_substitutions : Nat)
    (mods : String) : List (List Char × Nat × List Nat) :=
  let pfp := pyroAdjust mods peptide
  let n_indices := indicesOf 'N' pfp
  let q_indices := indicesOf 'Q' pfp
  if n_indices = [] ∧ q_indices = [] then [(peptide, 0, [])]
  else
    (List.range (min max_substitutions n_indices.length + 1)).flatMap fun num_n =>
      (List.range (min (max_substitutions - num_n) q_indices.length + 1)).flatMap fun num_q =>
        (List.sublistsLen num_n n_indices).flatMap fun combo_n =>
          (List.sublistsLen num_q q_indices).map fun combo_q =>
            (applySubs 'E' combo_q (applySubs 'D' combo_n peptide),
              (combo_n ++ combo_q).length, combo_n ++ combo_q)

/-- Embeds `analysis.generate_reamidation_permutations` (Phase 2). -/
def generate_reamidation_permutations (peptide : List Char)
    (modified_positions : List Nat) (mods : String) : List (List Char) :=
  let pfp := pyroAdjust mods peptide
  let d_indices := unmodIndicesOf 'D' modified_positions pfp
  let e_indices := unmodIndicesOf 'E' modified_positions pfp
  if d_indices = [] ∧ e_indices = [] then [peptide]
  else
    (List.range (d_indices.length + 1)).flatMap fun num_d =>
      (List.range (e_indices.length + 1)).flatMap fun num_e =>
        (List.sublistsLen num_d d_indices).flatMap fun combo_d =>
          (List.sublistsLen num_e e_indices).map fun combo_e =>
            applySubs 'Q' combo_e (applySubs 'N' combo_d peptide)

/-- Python's `s.replace(a, b, 1)` for single characters: replace the first
occurrence of `a` anywhere in the string. -/
def replaceFirst (a b : Char) : List Char → List Char
  | [] => []
  | c :: rest => if c = a then b :: rest else c :: replaceFirst a b rest

/-- Embeds `analysis.add_pyro_glu_permutations` (Phase 3).  The Python
function returns `list(set(...))`, an unordered duplicate-free collection;
we represent that set by the first-occurrence deduplication of
`perms ++ modified`, and state all claims about it set-wise.  The source
indexes `peptide_permutations[0]`, so it is only called on non-empty input
lists; `headD []` stands in for that access. -/
def pyroAdded (perms : List (List Char)) (mods : String) : List (List Char) :=
  if mods ≠ "" then
    if (perms.headD []).head? = some 'Q' ∧ isSubstrL "Gln->pyro-Glu".toList mods.toList then
      perms.map (replaceFirst 'Q' 'E')
    else if (perms.headD []).head? = some 'E' ∧ isSubstrL "Glu->pyro-Glu".toList mods.toList then
      perms.map (replaceFirst 'E' 'Q')
    else []
  else []

def add_pyro_glu_permutations (perms : List (List Char)) (mods : String) :
    List (List Char) :=
  (perms ++ pyroAdded perms mods).dedup

/-- The variant-generation portion of `main.process_row`: Phase 1, Phase 2
over every Phase-1 variant with its frozen positions, Phase 3, and the
final `list(set(...))` deduplication. -/
def rowVariants (peptide : List Char) (mods : String) : List (List Char) :=
  (add_pyro_glu_permutations
    ((generate_deamidation_permutations peptide (extract_deamidation_count mods) mods).flatMap
      fun t => generate_reamidation_permutations t.1 t.2.2 mods)
    mods).dedup

/-! ## Ancestor resolver (`unipept_api.process_peptides`,
`unipept_api.get_lcas_for_permutations`)

The oracle abstracts one `session.get` round-trip on a chunk: `none` is a
raised/failed request (the `except` branch), `some rs` is the parsed JSON
list of records, each carrying the echoed peptide and the optional
`taxon_name` field.  Python dicts are modelled as functions
`List Char → Option String` updated by assignment. -/

def Oracle : Type :=
  List (List Char) → Option (List (List Char × Option String))

def LcaMap : Type := List Char → Option String

def emptyMap : LcaMap := fun _ => none

/-- `m[p] = v`. -/
def dinsert (m : LcaMap) (p : List Char) (v : String) : LcaMap :=
  fun q => if q = p then some v else m q

/-- `m.get(p, dflt)`. -/
def dget (m : LcaMap) (p : List Char) (dflt : String) : String :=
  (m p).getD dflt

/-- Embeds `unipept_api.process_peptides`: build
`{r["peptide"]: r.get("taxon_name", "no match")}` and read each input back
with default `"no match"`; a failed request yields `"no response"` for
every peptide of the chunk. -/
def process_peptides (oracle : Oracle) (peptides : List (List Char)) : List String :=
  match oracle peptides with
  | some results =>
    let lca_map := results.foldl (fun m r => dinsert m r.1 (r.2.getD "no match")) emptyMap
    peptides.map fun p => dget lca_map p "no match"
  | none => peptides.map fun _ => "no response"

/-- The chunking of `for i in range(0, len(l), 100): l[i:i+100]`. -/
def chunks100 {α : Type} (l : List α) : List (List α) :=
  (List.range ((l.length + 99) / 100)).map fun k => (l.drop (100 * k)).take 100

/-- `for pep, lca in zip(chunk, chunk_lcas): lca_map[pep] = lca`. -/
def chunkFold (m : LcaMap) (chunk : List (List Char)) (lcas : List String) : LcaMap :=
  (chunk.zip lcas).foldl (fun m pr => dinsert m pr.1 pr.2) m

/-- Embeds `unipept_api.get_lcas_for_permutations`. -/
def get_lcas_for_permutations (oracle : Oracle) (permutations : List (List Char)) :
    List String :=
  let lca_map := (chunks100 permutations).foldl
    (fun m chunk => chunkFold m chunk (process_peptides oracle chunk)) emptyMap
  permutations.map fun p => dget lca_map p "no match"

/-! ## Classifier (`writers.write_results`, per-row verdict section) -/

/-- The `lca_options` list accumulated by `writers.write_results`: the
labels of `zip(final_permutations, row_lcas)` whose label is not
`"no match"`. -/
def usable_labels (final_permutations : List (List Char)) (row_lcas : List String) :
    List String :=
  ((final_permutations.zip row_lcas).filter fun pr => decide (pr.2 ≠ "no match")).map
    Prod.snd

/-- The `identical_LCAs` verdict computed by `writers.write_results`:
`"NA"` when `len(lca_options) <= 1`, `"yes"` when `len(set(lca_options))`
is 1, `"no"` otherwise. -/
def identical_lcas_verdict (final_permutations : List (List Char))
    (row_lcas : List String) : String :=
  if (usable_labels final_permutations row_lcas).length ≤ 1 then "NA"
  else if (usable_labels final_permutations row_lcas).dedup.length = 1 then "yes"
  else "no"

/-! ## Helper lemmas -/

lemma sum_map_range (f : Nat → Nat) : ∀ n : Nat,
    ((List.range n).map f).sum = ∑ i ∈ Finset.range n, f i := by
  intro n
  induction n with
  | zero => simp
  | succ n ih => rw [List.range_succ, List.map_append, List.sum_append,
      Finset.sum_range_succ, ih]; simp

lemma sum_map_const {α : Type} (l : List α) (c : Nat) :
    (l.map fun _ => c).sum = l.length * c := by
  induction l with
  | nil => simp
  | cons a as ih => simp [ih, Nat.succ_mul, Nat.add_comm]

lemma toFinset_dedup_eq (l : List (List Char)) : l.dedup.toFinset = l.toFinset := by
  ext a; simp [List.mem_toFinset, List.mem_dedup]

lemma toFinset_map_eq (l : List (List Char)) (f : List Char → List Char) :
    (l.map f).toFinset = l.toFinset.image f := by
  ext a; simp [List.mem_toFinset, List.mem_map, Finset.mem_image]

lemma dedup_length_eq_one_iff {l : List String} (hne : l ≠ []) :
    l.dedup.length = 1 ↔ ∀ x ∈ l, ∀ y ∈ l, x = y := by
  constructor
  · rw [List.length_eq_one]
    rintro ⟨a, ha⟩ x hx y hy
    have hx' : x ∈ l.dedup := List.mem_dedup.mpr hx
    have hy' : y ∈ l.dedup := List.mem_dedup.mpr hy
    rw [ha, List.mem_singleton] at hx' hy'
    rw [hx', hy']
  · intro h
    obtain ⟨a, t, rfl⟩ : ∃ a t, l = a :: t := by
      cases l with
      | nil => exact absurd rfl hne
      | cons a t => exact ⟨a, t, rfl⟩
    have hfin : (a :: t).toFinset = {a} := by
      apply Finset.eq_singleton_iff_unique_mem.mpr
      refine ⟨by simp, ?_⟩
      intro x hx
      exact h x (List.mem_toFinset.mp hx) a (by simp)
    have := List.card_toFinset (a :: t)
    rw [hfin] at this
    simpa using this.symm

lemma usable_labels_ne_no_match (perms : List (List Char)) (lcas : List String) :
    ∀ l ∈ usable_labels perms lcas, l ≠ "no match" := by
  intro l hl
  simp only [usable_labels, List.mem_map, List.mem_filter] at hl
  obtain ⟨pr, ⟨_, hpred⟩, rfl⟩ := hl
  simpa using hpred

lemma usable_labels_subset (perms : List (List Char)) (lcas : List String) :
    ∀ l ∈ usable_labels perms lcas, l ∈ lcas := by
  intro l hl
  simp only [usable_labels, List.mem_map, List.mem_filter] at hl
  obtain ⟨⟨p, v⟩, ⟨hmem, _⟩, rfl⟩ := hl
  exact (List.of_mem_zip hmem).2

/-! ## Claims -/

/-- C1, counterexample: a row of two variants whose lookups both returned
the "no response" sentinel gets verdict "yes" from the code, not "NA" as
the claim states — "no response" labels are not filtered out. -/
theorem c1_counterexample :
    identical_lcas_verdict [['A'], ['B']] ["no response", "no response"] = "yes" ∧
    identical_lcas_verdict [['A'], ['B']] ["no response", "no response"] ≠ "NA" := by
  constructor <;> decide

/-- C1 (amended): only labels equal to "no match" are excluded from the
usable-label list ("no response" labels are kept and counted); the verdict
is "NA" iff fewer than 2 usable labels remain, and with at least 2 usable
labels it is "yes" iff all usable labels are textually identical; hence a
row in which every lookup returned "no response" (and at least 2 variants
were looked up) yields "yes", not "NA". -/
theorem c1_amended_verdict (perms : List (List Char)) (lcas : List String) :
    (∀ l ∈ usable_labels perms lcas, l ≠ "no match")
    ∧ (identical_lcas_verdict perms lcas = "NA" ↔ (usable_labels perms lcas).length < 2)
    ∧ (2 ≤ (usable_labels perms lcas).length →
        (identical_lcas_verdict perms lcas = "yes" ↔
          ∀ x ∈ usable_labels perms lcas, ∀ y ∈ usable_labels perms lcas, x = y))
    ∧ (2 ≤ (usable_labels perms lcas).length →
        (∀ l ∈ lcas, l = "no response") →
        identical_lcas_verdict perms lcas = "yes") := by
  refine ⟨usable_labels_ne_no_match perms lcas, ?_, ?_, ?_⟩
  · unfold identical_lcas_verdict
    split_ifs with h1 h2 <;> constructor <;> intro h <;> first | omega | rfl | simp_all
  · intro hlen
    have hne : usable_labels perms lcas ≠ [] := by
      intro h; rw [h] at hlen; simp at hlen
    unfold identical_lcas_verdict
    rw [if_neg (by omega)]
    split_ifs with h2
    · simp only [true_iff]
      exact (dedup_length_eq_one_iff hne).mp h2
    · constructor
      · intro h; exact absurd h (by decide)
      · intro hall; exact absurd ((dedup_length_eq_one_iff hne).mpr hall) h2
  · intro hlen hresp
    have hall : ∀ x ∈ usable_labels perms lcas, ∀ y ∈ usable_labels perms lcas, x = y := by
      intro x hx y hy
      rw [hresp x (usable_labels_subset perms lcas x hx),
        hresp y (usable_labels_subset perms lcas y hy)]
    have hne : usable_labels perms lcas ≠ [] := by
      intro h; rw [h] at hlen; simp at hlen
    unfold identical_lcas_verdict
    rw [if_neg (by omega), if_pos ((dedup_length_eq_one_iff hne).mpr hall)]

/-- C1, witness for the amended claim at a concrete row. -/
theorem c1_amended_witness :
    identical_lcas_verdict [['A'], ['B']] ["Homo", "Homo"] = "yes" :=
  ((c1_amended_verdict [['A'], ['B']] ["Homo", "Homo"]).2.2.1 (by decide)).mpr (by decide)

/-- C7: `deamidation_position_required` returns "not required" when the
peptide is empty, the verdict is not "no", or the parsed deamidation event
count is 0; otherwise it returns "required" exactly when the event count is
strictly below the deamidatable-residue total, which counts N/Q residues
after dropping the leading residue when it is Q or E and the annotation
contains "pyro" case-insensitively. -/
theorem c7_position_required (mods : String) (pep : List Char) (verdict : String) :
    deamidation_position_required mods pep verdict =
      if pep = [] then "not required"
      else if verdict ≠ "no" ∨ extract_deamidation_count mods = 0 then "not required"
      else if extract_deamidation_count mods <
          ((if pyroFlag mods ∧ (pep.head? = some 'Q' ∨ pep.head? = some 'E') then pep.tail
            else pep).countP fun c => decide (c = 'N' ∨ c = 'Q')) then "required"
      else "not required" := by
  unfold deamidation_position_required count_deamidatable_residues
  split_ifs <;> first | rfl | omega | simp_all

/-! ## Generator helper lemmas -/

lemma snd_mem_of_mem_enum {l : List Char} {pr : Nat × Char} (h : pr ∈ l.enum) : pr.2 ∈ l := by
  obtain ⟨i, x⟩ := pr
  obtain ⟨hi, hx⟩ := List.mem_enum h
  exact hx ▸ List.getElem_mem hi

lemma indicesOf_eq_nil {c : Char} {l : List Char} (h : c ∉ l) : indicesOf c l = [] := by
  unfold indicesOf
  have : l.enum.filter (fun pr => decide (pr.2 = c)) = [] := by
    apply List.filter_eq_nil_iff.mpr
    intro pr hpr
    simp only [decide_eq_true_eq]
    intro he
    exact h (he ▸ snd_mem_of_mem_enum hpr)
  rw [this, List.map_nil]

lemma unmodIndicesOf_eq_nil {c : Char} {frozen : List Nat} {l : List Char} (h : c ∉ l) :
    unmodIndicesOf c frozen l = [] := by
  unfold unmodIndicesOf
  have : l.enum.filter (fun pr => decide (pr.2 = c ∧ pr.1 ∉ frozen)) = [] := by
    apply List.filter_eq_nil_iff.mpr
    intro pr hpr
    simp only [decide_eq_true_eq, not_and]
    intro he
    exact absurd (he ▸ snd_mem_of_mem_enum hpr) h
  rw [this, List.map_nil]

lemma mem_unmodIndicesOf_not_frozen {c : Char} {frozen : List Nat} {l : List Char} {i : Nat}
    (h : i ∈ unmodIndicesOf c frozen l) : i ∉ frozen := by
  simp only [unmodIndicesOf, List.mem_map, List.mem_filter, decide_eq_true_eq] at h
  obtain ⟨pr, ⟨-, -, hpred⟩, rfl⟩ := h
  exact hpred

lemma pyroAdjust_eq_self {mods : String} {p : List Char} (hQ : 'Q' ∉ p) (hE : 'E' ∉ p) :
    pyroAdjust mods p = p := by
  cases p with
  | nil => rfl
  | cons c rest =>
    show (if pyroFlag mods = true ∧ (c = 'Q' ∨ c = 'E') then 'X' :: rest else c :: rest)
      = c :: rest
    rw [if_neg]
    rintro ⟨-, hc | hc⟩
    · subst hc; exact hQ (by simp)
    · subst hc; exact hE (by simp)

lemma applySubs_nil (c : Char) (l : List Char) : applySubs c [] l = l := rfl

lemma applySubs_getElem?_of_not_mem (c : Char) (combo : List Nat) (l : List Char) (i : Nat)
    (h : i ∉ combo) : (applySubs c combo l)[i]? = l[i]? := by
  induction combo generalizing l with
  | nil => rfl
  | cons a as ih =>
    have ha : a ≠ i := fun e => h (e ▸ List.mem_cons_self a as)
    have has : i ∉ as := fun hm => h (List.mem_cons_of_mem a hm)
    show (applySubs c as (l.set a c))[i]? = l[i]?
    rw [ih _ has, List.getElem?_set_ne ha]

lemma self_mem_gen_deamid (p : List Char) (m : Nat) (mods : String) :
    (p, 0, ([] : List Nat)) ∈ generate_deamidation_permutations p m mods := by
  simp only [generate_deamidation_permutations]
  split_ifs with h
  · simp
  · simp only [List.mem_flatMap, List.mem_map]
    exact ⟨0, by simp, 0, by simp, [], by simp [List.sublistsLen_zero], [],
      by simp [List.sublistsLen_zero], rfl⟩

lemma self_mem_gen_reamid (p : List Char) (frozen : List Nat) (mods : String) :
    p ∈ generate_reamidation_permutations p frozen mods := by
  simp only [generate_reamidation_permutations]
  split_ifs with h
  · simp
  · simp only [List.mem_flatMap, List.mem_map]
    exact ⟨0, by simp, 0, by simp, [], by simp [List.sublistsLen_zero], [],
      by simp [List.sublistsLen_zero], rfl⟩

lemma mem_add_pyro_of_mem {perms : List (List Char)} {mods : String} {x : List Char}
    (h : x ∈ perms) : x ∈ add_pyro_glu_permutations perms mods :=
  List.mem_dedup.mpr (List.mem_append.mpr (Or.inl h))

lemma verdict_of_singleton (p : List Char) (lcas : List String) :
    identical_lcas_verdict [p] lcas = "NA" := by
  have h : (usable_labels [p] lcas).length ≤ 1 := by
    unfold usable_labels
    rw [List.length_map]
    calc (List.filter _ _).length ≤ ([p].zip lcas).length := List.length_filter_le _ _
      _ ≤ 1 := by rw [List.length_zip]; simp
  unfold identical_lcas_verdict
  rw [if_pos h]

/-- C6, counterexample: peptide "DGK" has zero N and zero Q residues and an
empty annotation parses to budget 0, yet the pipeline produces 2 variants
("DGK" and its reamidation "NGK"), not exactly one. -/
theorem c6_counterexample :
    ('N' ∉ "DGK".toList) ∧ ('Q' ∉ "DGK".toList) ∧ extract_deamidation_count "" = 0
    ∧ (rowVariants "DGK".toList "").length = 2 := by
  refine ⟨by decide, by decide, by decide, by decide⟩

/-- C6 (amended): for every non-empty peptide containing zero N, Q, D and E
residues, processed with parsed deamidation budget 0, the full generator
yields exactly one variant equal to the input peptide, and the row's
identical_LCAs verdict is "NA" whatever labels the resolver returns. -/
theorem c6_round_trip (p : List Char) (mods : String) (hne : p ≠ [])
    (hN : 'N' ∉ p) (hQ : 'Q' ∉ p) (hD : 'D' ∉ p) (hE : 'E' ∉ p)
    (hm : extract_deamidation_count mods = 0) :
    rowVariants p mods = [p]
    ∧ ∀ lcas : List String, identical_lcas_verdict (rowVariants p mods) lcas = "NA" := by
  have h1 : generate_deamidation_permutations p (extract_deamidation_count mods) mods
      = [(p, 0, [])] := by
    simp only [generate_deamidation_permutations, pyroAdjust_eq_self hQ hE,
      indicesOf_eq_nil hN, indicesOf_eq_nil hQ]
    simp
  have h2 : generate_reamidation_permutations p [] mods = [p] := by
    simp only [generate_reamidation_permutations, pyroAdjust_eq_self hQ hE,
      unmodIndicesOf_eq_nil hD, unmodIndicesOf_eq_nil hE]
    simp
  have h3 : add_pyro_glu_permutations [p] mods = [p] := by
    have hadd : pyroAdded [p] mods = [] := by
      unfold pyroAdded
      split_ifs with hmods hQ1 hE1
      · exfalso
        cases p with
        | nil => exact hne rfl
        | cons c rest =>
          have : c = 'Q' := by simpa using hQ1.1
          exact hQ (this ▸ List.mem_cons_self c rest)
      · exfalso
        cases p with
        | nil => exact hne rfl
        | cons c rest =>
          have : c = 'E' := by simpa using hE1.1
          exact hE (this ▸ List.mem_cons_self c rest)
      · rfl
      · rfl
    unfold add_pyro_glu_permutations
    rw [hadd, List.append_nil]
    simp
  have hrow : rowVariants p mods = [p] := by
    unfold rowVariants
    rw [h1]
    have : ([(p, 0, ([] : List Nat))].flatMap fun t =>
        generate_reamidation_permutations t.1 t.2.2 mods) = [p] := by
      simp only [List.flatMap_cons, List.flatMap_nil, List.append_nil]
      exact h2
    rw [this, h3]
    simp
  exact ⟨hrow, fun lcas => by rw [hrow]; exact verdict_of_singleton p lcas⟩

/-- C6, witness for the amended claim at the N/Q/D/E-free peptide "GAK". -/
theorem c6_witness :
    rowVariants "GAK".toList "" = ["GAK".toList]
    ∧ identical_lcas_verdict (rowVariants "GAK".toList "") ["no response"] = "NA" := by
  have h := c6_round_trip "GAK".toList "" (by decide) (by decide) (by decide) (by decide)
    (by decide) (by decide)
  exact ⟨h.1, h.2 ["no response"]⟩

/-- C9: for peptide "QGTK" with annotation "Gln->pyro-Glu" the parsed
budget is 0, Phase 1 emits only the unmodified peptide, Phase 2 keeps it
(the pyro-masked N-terminal Q is not a substitution target), Phase 3 adds
"EGTK" by replacing the leading residue, and the final deduplicated set is
exactly the two strings "QGTK" and "EGTK". -/
theorem c9_scenario_b :
    extract_deamidation_count "Gln->pyro-Glu" = 0
    ∧ generate_deamidation_permutations "QGTK".toList 0 "Gln->pyro-Glu"
        = [("QGTK".toList, 0, [])]
    ∧ ((generate_deamidation_permutations "QGTK".toList 0 "Gln->pyro-Glu").flatMap
        fun t => generate_reamidation_permutations t.1 t.2.2 "Gln->pyro-Glu")
        = ["QGTK".toList]
    ∧ pyroAdded ["QGTK".toList] "Gln->pyro-Glu" = ["EGTK".toList]
    ∧ (rowVariants "QGTK".toList "Gln->pyro-Glu").toFinset
        = {"QGTK".toList, "EGTK".toList} := by
  refine ⟨by decide, by decide, by decide, by decide, by decide⟩

/-- C10: the final deduplicated variant set of the row pipeline always
contains the original input peptide: Phase 1 emits the zero-substitution
choice, Phase 2 emits the empty revert subset, and Phase 3 only adds. -/
theorem c10_input_preserved (p : List Char) (mods : String) (hne : p ≠ []) :
    p ∈ rowVariants p mods := by
  unfold rowVariants
  apply List.mem_dedup.mpr
  apply mem_add_pyro_of_mem
  exact List.mem_flatMap.mpr
    ⟨(p, 0, []), self_mem_gen_deamid p (extract_deamidation_count mods) mods,
      self_mem_gen_reamid p [] mods⟩

/-- C10, witness at a peptide whose Phases 1-3 all actually expand. -/
theorem c10_witness :
    "NGQK".toList ∈ rowVariants "NGQK".toList "2 Deamidated (NQ)" :=
  c10_input_preserved "NGQK".toList "2 Deamidated (NQ)" (by decide)

/-- C8: Phase 3 never removes a variant: its output is duplicate-free,
contains every input variant, has at most twice as many distinct strings as
the input, and when neither pyro-Glu tag/leading-residue condition applies
the output set equals the input set. -/
theorem c8_phase3_monotone (perms : List (List Char)) (mods : String) (hne : perms ≠ []) :
    (add_pyro_glu_permutations perms mods).Nodup
    ∧ (∀ x ∈ perms, x ∈ add_pyro_glu_permutations perms mods)
    ∧ (add_pyro_glu_permutations perms mods).toFinset.card ≤ 2 * perms.toFinset.card
    ∧ (¬ (mods ≠ "" ∧
          (((perms.headD []).head? = some 'Q' ∧ isSubstrL "Gln->pyro-Glu".toList mods.toList)
            ∨ ((perms.headD []).head? = some 'E' ∧ isSubstrL "Glu->pyro-Glu".toList mods.toList))) →
        (add_pyro_glu_permutations perms mods).toFinset = perms.toFinset) := by
  have hsplit : (add_pyro_glu_permutations perms mods).toFinset
      = perms.toFinset ∪ (pyroAdded perms mods).toFinset := by
    unfold add_pyro_glu_permutations
    rw [toFinset_dedup_eq, List.toFinset_append]
  refine ⟨List.nodup_dedup _, fun x hx => mem_add_pyro_of_mem hx, ?_, ?_⟩
  · have hM : (pyroAdded perms mods).toFinset.card ≤ perms.toFinset.card := by
      unfold pyroAdded
      split_ifs
      · rw [toFinset_map_eq]; exact Finset.card_image_le
      · rw [toFinset_map_eq]; exact Finset.card_image_le
      · simp
      · simp
    rw [hsplit]
    calc (perms.toFinset ∪ (pyroAdded perms mods).toFinset).card
        ≤ perms.toFinset.card + (pyroAdded perms mods).toFinset.card :=
          Finset.card_union_le _ _
      _ ≤ 2 * perms.toFinset.card := by omega
  · intro hcond
    have hadd : pyroAdded perms mods = [] := by
      unfold pyroAdded
      split_ifs with hmods hQ1 hE1
      · exact absurd ⟨hmods, Or.inl hQ1⟩ hcond
      · exact absurd ⟨hmods, Or.inr hE1⟩ hcond
      · rfl
      · rfl
    rw [hsplit, hadd]
    simp

/-- C8, witness at a pyro-Glu row where Phase 3 genuinely doubles the set. -/
theorem c8_witness :
    (add_pyro_glu_permutations ["QGTK".toList] "Gln->pyro-Glu").Nodup ∧
    "QGTK".toList ∈ add_pyro_glu_permutations ["QGTK".toList] "Gln->pyro-Glu" := by
  have h := c8_phase3_monotone ["QGTK".toList] "Gln->pyro-Glu" (by decide)
  exact ⟨h.1, h.2.1 "QGTK".toList (by decide)⟩

/-! ## Counting the two enumeration phases -/

lemma length_double_flatMap {α : Type} (K : Nat) (g : Nat → Nat) (nl ql : List Nat)
    (f : Nat → Nat → List Nat → List Nat → α) :
    ((List.range K).flatMap fun i =>
      (List.range (g i)).flatMap fun j =>
        (List.sublistsLen i nl).flatMap fun ci =>
          (List.sublistsLen j ql).map fun cj => f i j ci cj).length
    = ∑ i ∈ Finset.range K, ∑ j ∈ Finset.range (g i),
        Nat.choose nl.length i * Nat.choose ql.length j := by
  rw [List.length_flatMap, sum_map_range]
  apply Finset.sum_congr rfl
  intro i _
  simp only [Function.comp_apply]
  rw [List.length_flatMap, sum_map_range]
  apply Finset.sum_congr rfl
  intro j _
  simp only [Function.comp_apply]
  rw [List.length_flatMap]
  have hc : ((List.sublistsLen i nl).map
      (List.length ∘ fun ci => (List.sublistsLen j ql).map fun cj => f i j ci cj))
      = (List.sublistsLen i nl).map fun _ => Nat.choose ql.length j := by
    apply List.map_congr_left
    intro ci _
    simp [List.length_sublistsLen]
  rw [hc, sum_map_const, List.length_sublistsLen]

/-- C3: Phase 1 returns exactly
`Σ_{i=0}^{min(m,n)} Σ_{j=0}^{min(m-i,q)} C(n,i)·C(q,j)` variants, where `n`
and `q` count the N- and Q-positions remaining after the N-terminal pyro
masking; with no such positions the sole output is the unmodified peptide
with an empty substitution set. -/
theorem c3_phase1_count (p : List Char) (m : Nat) (mods : String) (hp : p ≠ []) :
    (generate_deamidation_permutations p m mods).length =
      (∑ i ∈ Finset.range (min m (indicesOf 'N' (pyroAdjust mods p)).length + 1),
        ∑ j ∈ Finset.range (min (m - i) (indicesOf 'Q' (pyroAdjust mods p)).length + 1),
          Nat.choose (indicesOf 'N' (pyroAdjust mods p)).length i *
            Nat.choose (indicesOf 'Q' (pyroAdjust mods p)).length j)
    ∧ (indicesOf 'N' (pyroAdjust mods p) = [] ∧ indicesOf 'Q' (pyroAdjust mods p) = [] →
        generate_deamidation_permutations p m mods = [(p, 0, [])]) := by
  constructor
  · simp only [generate_deamidation_permutations]
    split_ifs with h
    · rw [h.1, h.2]
      simp
    · exact length_double_flatMap _ _ _ _ _
  · intro h
    simp only [generate_deamidation_permutations]
    rw [if_pos h]

/-- C3, witness: Scenario A peptide "NGQK" with budget 2. -/
theorem c3_witness :
    (generate_deamidation_permutations "NGQK".toList 2 "2 Deamidated (NQ)").length =
      (∑ i ∈ Finset.range
          (min 2 (indicesOf 'N' (pyroAdjust "2 Deamidated (NQ)" "NGQK".toList)).length + 1),
        ∑ j ∈ Finset.range
          (min (2 - i)
            (indicesOf 'Q' (pyroAdjust "2 Deamidated (NQ)" "NGQK".toList)).length + 1),
          Nat.choose (indicesOf 'N' (pyroAdjust "2 Deamidated (NQ)" "NGQK".toList)).length i *
            Nat.choose (indicesOf 'Q' (pyroAdjust "2 Deamidated (NQ)" "NGQK".toList)).length j) :=
  (c3_phase1_count "NGQK".toList 2 "2 Deamidated (NQ)" (by decide)).1

/-- C4: Phase 2 returns exactly `2^(d+e)` variants, where `d` and `e`
count the variant's D- and E-positions that are outside the frozen
substitution set (after the N-terminal pyro masking); the unrestricted
powerset carries no budget cap. -/
theorem c4_phase2_count (p : List Char) (frozen : List Nat) (mods : String) (hp : p ≠ []) :
    (generate_reamidation_permutations p frozen mods).length =
      2 ^ ((unmodIndicesOf 'D' frozen (pyroAdjust mods p)).length
        + (unmodIndicesOf 'E' frozen (pyroAdjust mods p)).length) := by
  simp only [generate_reamidation_permutations]
  split_ifs with h
  · rw [h.1, h.2]
    simp
  · rw [length_double_flatMap, ← Finset.sum_mul_sum, Nat.sum_range_choose,
      Nat.sum_range_choose, ← pow_add]

/-- C4, witness: "DGEK" with nothing frozen gives `2^2 = 4` variants. -/
theorem c4_witness :
    (generate_reamidation_permutations "DGEK".toList [] "").length =
      2 ^ ((unmodIndicesOf 'D' [] (pyroAdjust "" "DGEK".toList)).length
        + (unmodIndicesOf 'E' [] (pyroAdjust "" "DGEK".toList)).length) :=
  c4_phase2_count "DGEK".toList [] "" (by decide)

/-- C5: no Phase-2 output ever reverts a position of the variant's frozen
substitution set — at every frozen position the output holds the same
residue as the input variant. -/
theorem c5_frozen_never_reverted (p : List Char) (frozen : List Nat) (mods : String)
    (hp : p ≠ []) (out : List Char)
    (hout : out ∈ generate_reamidation_permutations p frozen mods)
    (i : Nat) (hi : i ∈ frozen) : out[i]? = p[i]? := by
  simp only [generate_reamidation_permutations] at hout
  by_cases h : unmodIndicesOf 'D' frozen (pyroAdjust mods p) = []
      ∧ unmodIndicesOf 'E' frozen (pyroAdjust mods p) = []
  · rw [if_pos h] at hout
    rw [List.mem_singleton.mp hout]
  · rw [if_neg h] at hout
    simp only [List.mem_flatMap, List.mem_map] at hout
    obtain ⟨nd, -, ne, -, cd, hcd, ce, hce, rfl⟩ := hout
    have hid : i ∉ unmodIndicesOf 'D' frozen (pyroAdjust mods p) :=
      fun hmem => mem_unmodIndicesOf_not_frozen hmem hi
    have hie : i ∉ unmodIndicesOf 'E' frozen (pyroAdjust mods p) :=
      fun hmem => mem_unmodIndicesOf_not_frozen hmem hi
    have hcd' : i ∉ cd := fun hm => hid ((List.mem_sublistsLen.mp hcd).1.subset hm)
    have hce' : i ∉ ce := fun hm => hie ((List.mem_sublistsLen.mp hce).1.subset hm)
    rw [applySubs_getElem?_of_not_mem _ _ _ _ hce', applySubs_getElem?_of_not_mem _ _ _ _ hcd']

/-- C5, witness: for variant "DDK" with frozen position 0, Phase-2 output
"DNK" keeps the frozen leading D. -/
theorem c5_witness : ("DNK".toList)[0]? = ("DDK".toList)[0]? :=
  c5_frozen_never_reverted "DDK".toList [0] "" (by decide) "DNK".toList (by decide) 0 (by decide)

/-! ## Resolver chunking lemmas -/

lemma chunks100_nil {α : Type} : chunks100 ([] : List α) = [] := by
  simp [chunks100]

lemma chunks100_cons {α : Type} (l : List α) (h : l ≠ []) :
    chunks100 l = l.take 100 :: chunks100 (l.drop 100) := by
  have hlen : 1 ≤ l.length := List.length_pos.mpr h
  unfold chunks100
  have hq : (l.length + 99) / 100 = ((l.drop 100).length + 99) / 100 + 1 := by
    rw [List.length_drop]; omega
  rw [hq, List.range_succ_eq_map, List.map_cons, List.map_map]
  refine congrArg₂ List.cons (by simp) ?_
  apply List.map_congr_left
  intro k _
  simp only [Function.comp_apply]
  rw [List.drop_drop, Nat.mul_succ, Nat.add_comm (100 * k) 100]

lemma chunks100_flatten {α : Type} (l : List α) : (chunks100 l).flatten = l := by
  by_cases h : l = []
  · subst h; rw [chunks100_nil]; rfl
  · rw [chunks100_cons l h, List.flatten_cons, chunks100_flatten (l.drop 100),
      List.take_append_drop]
termination_by l.length
decreasing_by
  simp only [List.length_drop]
  have := List.length_pos.mpr h
  omega

lemma chunks100_mem_facts {α : Type} (l : List α) {c : List α} (hc : c ∈ chunks100 l) :
    c ≠ [] ∧ c.length ≤ 100 := by
  simp only [chunks100, List.mem_map, List.mem_range] at hc
  obtain ⟨k, hk, rfl⟩ := hc
  have hlt : 100 * k < l.length := by omega
  constructor
  · intro hnil
    have := congrArg List.length hnil
    rw [List.length_take, List.length_drop] at this
    simp only [List.length_nil] at this
    omega
  · rw [List.length_take]
    omega

lemma mem_of_mem_chunks100 {α : Type} {l : List α} {c : List α} (hc : c ∈ chunks100 l)
    {x : α} (hx : x ∈ c) : x ∈ l := by
  simp only [chunks100, List.mem_map, List.mem_range] at hc
  obtain ⟨k, -, rfl⟩ := hc
  exact (List.drop_sublist _ _).subset ((List.take_sublist _ _).subset hx)

lemma chunks100_map_length_250 {α : Type} (l : List α) (h : l.length = 250) :
    (chunks100 l).map List.length = [100, 100, 50] := by
  simp only [chunks100, h, List.map_map]
  rw [show (250 + 99) / 100 = 3 from by norm_num]
  rw [show List.range 3 = [0, 1, 2] from rfl]
  simp [List.length_take, List.length_drop, h]

/-! ## Resolver dictionary lemmas -/

lemma foldl_dinsert_of_no_key {α : Type} (key : α → List Char) (val : α → String)
    (rs : List α) (m : LcaMap) (p : List Char) (h : ∀ r ∈ rs, key r ≠ p) :
    (rs.foldl (fun m r => dinsert m (key r) (val r)) m) p = m p := by
  induction rs generalizing m with
  | nil => rfl
  | cons a as ih =>
    rw [List.foldl_cons, ih _ (fun r hr => h r (List.mem_cons_of_mem a hr))]
    simp only [dinsert]
    rw [if_neg]
    exact fun e => (h a (List.mem_cons_self a as)) e.symm

lemma foldl_dinsert_of_mem_key {α : Type} (key : α → List Char) (val : α → String)
    (rs : List α) (m : LcaMap) (a : α) (ha : a ∈ rs) (hnd : (rs.map key).Nodup) :
    (rs.foldl (fun m r => dinsert m (key r) (val r)) m) (key a) = some (val a) := by
  induction rs generalizing m with
  | nil => cases ha
  | cons b bs ih =>
    rw [List.foldl_cons]
    rcases List.mem_cons.mp ha with h | h
    · subst h
      have hk : ∀ r ∈ bs, key r ≠ key a := by
        intro r hr he
        exact (List.nodup_cons.mp hnd).1 (he ▸ List.mem_map_of_mem key hr)
      rw [foldl_dinsert_of_no_key key val bs _ _ hk]
      simp [dinsert]
    · exact ih _ h (List.nodup_cons.mp hnd).2

lemma chunkFold_not_mem (m : LcaMap) (chunk : List (List Char)) (lcas : List String)
    (p : List Char) (h : p ∉ chunk) : chunkFold m chunk lcas p = m p := by
  unfold chunkFold
  apply foldl_dinsert_of_no_key
  intro r hr he
  obtain ⟨a, b⟩ := r
  exact h (he ▸ (List.of_mem_zip hr).1)

lemma chunkFold_getElem (m : LcaMap) (chunk : List (List Char)) (lcas : List String)
    (hnd : chunk.Nodup) (hlen : chunk.length ≤ lcas.length)
    (k : Nat) (hk : k < chunk.length) (hk2 : k < lcas.length) :
    chunkFold m chunk lcas (chunk[k]) = some (lcas[k]) := by
  unfold chunkFold
  have hzlen : k < (chunk.zip lcas).length := by
    rw [List.length_zip]
    exact lt_min hk hk2
  have hmem : (chunk[k], lcas[k]) ∈ chunk.zip lcas := by
    have hz : (chunk.zip lcas)[k] = (chunk[k], lcas[k]) := List.getElem_zip
    exact hz ▸ List.getElem_mem hzlen
  have hnd2 : ((chunk.zip lcas).map Prod.fst).Nodup :=
    (List.map_fst_zip chunk lcas hlen).symm ▸ hnd
  exact foldl_dinsert_of_mem_key Prod.fst Prod.snd (chunk.zip lcas) m
    (chunk[k], lcas[k]) hmem hnd2

lemma rowFold_not_mem (oracle : Oracle) (chunks : List (List (List Char))) (m : LcaMap)
    (p : List Char) (h : ∀ c ∈ chunks, p ∉ c) :
    (chunks.foldl (fun m chunk => chunkFold m chunk (process_peptides oracle chunk)) m) p
      = m p := by
  induction chunks generalizing m with
  | nil => rfl
  | cons c cs ih =>
    rw [List.foldl_cons, ih _ (fun c' hc' => h c' (List.mem_cons_of_mem c hc'))]
    exact chunkFold_not_mem m c _ p (h c (List.mem_cons_self c cs))

lemma process_peptides_length (oracle : Oracle) (c : List (List Char)) :
    (process_peptides oracle c).length = c.length := by
  rcases horacle : oracle c with - | rs <;> simp [process_peptides, horacle]

lemma get_lcas_gen (oracle : Oracle) (ps : List (List Char)) (hnd : ps.Nodup) (m : LcaMap) :
    (ps.map fun p =>
      dget ((chunks100 ps).foldl
        (fun m chunk => chunkFold m chunk (process_peptides oracle chunk)) m) p "no match")
    = ((chunks100 ps).map (process_peptides oracle)).flatten := by
  by_cases h : ps = []
  · subst h; simp [chunks100_nil]
  · rw [chunks100_cons ps h, List.foldl_cons, List.map_cons, List.flatten_cons]
    have hnodups := List.nodup_append.mp (by rw [List.take_append_drop 100 ps]; exact hnd)
    have hmapsplit : ∀ F : List Char → String,
        ps.map F = (ps.take 100).map F ++ (ps.drop 100).map F := by
      intro F
      rw [← List.map_append, List.take_append_drop]
    rw [hmapsplit]
    congr 1
    · apply List.ext_getElem
      · rw [List.length_map, process_peptides_length]
      · intro k h1 h2
        rw [List.getElem_map]
        have hk : k < (ps.take 100).length := by
          rw [List.length_map] at h1; exact h1
        have hnotrest : ∀ c ∈ chunks100 (ps.drop 100), (ps.take 100)[k] ∉ c := by
          intro c hc hmem
          exact hnodups.2.2 (List.getElem_mem hk) (mem_of_mem_chunks100 hc hmem)
        simp only [dget]
        rw [rowFold_not_mem oracle _ _ _ hnotrest]
        rw [chunkFold_getElem m (ps.take 100) _ hnodups.1
          (by rw [process_peptides_length]) k hk
          (by rw [process_peptides_length]; exact hk)]
        rfl
    · exact get_lcas_gen oracle (ps.drop 100)
        (List.Nodup.sublist (List.drop_sublist 100 ps) hnd) _
termination_by ps.length
decreasing_by
  simp only [List.length_drop]
  have := List.length_pos.mpr h
  omega

/-- C2 (amended): for every duplicate-free input list, the resolver splits
the input into consecutive chunks of at most 100 (3 chunks of sizes
100/100/50 for 250 inputs) and its output is exactly the concatenation of
each chunk's own lookup results — same length as the input, aligned
positionally, with a failed chunk resolving to "no response" throughout
that chunk only and a succeeding chunk mapping each peptide absent from the
response to "no match". -/
theorem c2_resolver (oracle : Oracle) (ps : List (List Char)) (hnd : ps.Nodup) :
    get_lcas_for_permutations oracle ps
        = ((chunks100 ps).map (process_peptides oracle)).flatten
    ∧ (get_lcas_for_permutations oracle ps).length = ps.length
    ∧ (chunks100 ps).flatten = ps
    ∧ (∀ c ∈ chunks100 ps, c ≠ [] ∧ c.length ≤ 100)
    ∧ (ps.length = 250 → (chunks100 ps).map List.length = [100, 100, 50])
    ∧ (∀ c : List (List Char), oracle c = none →
        process_peptides oracle c = c.map fun _ => "no response")
    ∧ (∀ (ch : List (List Char)) (rs : List (List Char × Option String)) (p : List Char)
        (k : Nat), oracle ch = some rs → (∀ r ∈ rs, r.1 ≠ p) → ch[k]? = some p →
        (process_peptides oracle ch)[k]? = some "no match") := by
  refine ⟨?_, ?_, chunks100_flatten ps, fun c hc => chunks100_mem_facts ps hc,
    chunks100_map_length_250 ps, ?_, ?_⟩
  · exact get_lcas_gen oracle ps hnd emptyMap
  · simp [get_lcas_for_permutations]
  · intro c hc
    simp [process_peptides, hc]
  · intro c rs p k ho hkeys hck
    have hproc : process_peptides oracle c
        = c.map fun p' =>
            dget (rs.foldl (fun m r => dinsert m r.1 (r.2.getD "no match")) emptyMap)
              p' "no match" := by
      simp [process_peptides, ho]
    rw [hproc, List.getElem?_map, hck]
    simp only [Option.map_some']
    congr 1
    simp only [dget]
    rw [foldl_dinsert_of_no_key Prod.fst (fun r => r.2.getD "no match") rs emptyMap p hkeys]
    rfl

/-- C2, witness: a two-peptide duplicate-free input against a concrete
succeeding oracle. -/
def oracleW : Oracle := fun _ => some [(['A'], some "Homo")]

theorem c2_witness :
    get_lcas_for_permutations oracleW [['A'], ['B']]
      = ((chunks100 [['A'], ['B']]).map (process_peptides oracleW)).flatten :=
  (c2_resolver oracleW [['A'], ['B']] (by decide)).1

/-- An oracle that fails exactly on singleton chunks, and an input of 101
copies of the same peptide: the second chunk (position 100) fails, and the
shared dictionary entry drags every position of the succeeded first chunk
to "no response" as well. -/
def oracleCex : Oracle := fun c =>
  if c.length = 1 then none else some [(['A'], some "Homo")]

def psCex : List (List Char) := List.replicate 101 ['A']

/-- C2, counterexample: with duplicate inputs the claim fails — position 0
lies in the first chunk, whose request succeeded and returned "Homo" for
that peptide, yet the resolver reports "no response" there, because the
failed second chunk overwrote the shared dictionary entry. -/
theorem c2_counterexample :
    (chunks100 psCex).head? = some (psCex.take 100)
    ∧ (process_peptides oracleCex (psCex.take 100)).head? = some "Homo"
    ∧ (get_lcas_for_permutations oracleCex psCex).head? = some "no response" := by
  refine ⟨by decide, by decide, by decide⟩
